import Mathlib

/-!
Verification of the `ringbuf` crate: a growable FIFO ring buffer backed by
mirrored virtual memory.  The embedding models:

* `platform.rs`: the shared capacity rounding/validation arithmetic
  (`round_capacity`, `invalid_capacity`) in wrapping 64-bit (`usize`)
  arithmetic, and the platform `allocate` entry point.  The OS mapping
  itself is abstracted: a successful `allocate` yields the rounded byte
  capacity of one mirror half; OS-level mapping failure is modelled by an
  oracle `osFail`.  Fatal panics are modelled as `Except.error` / an
  `Option String` panic component.
* `lib.rs`: the `RingBuffer` bookkeeping state (`cap`, `base`, `len`, in
  the source's units: bytes, bytes, elements) together with the mirrored
  storage.  The mirrored mapping of `2 * cap` bytes aliases physical
  offset `a % cap`; storage is modelled at element granularity (an element
  written at virtual byte address `a` is recorded at physical offset
  `a % cap`), which is faithful because live element slots never overlap
  (`len * size_of ≤ cap`).
-/

namespace RingBuf

/-- Modulus of `usize` arithmetic (64-bit target). -/
def USIZE : Nat := 2 ^ 64

/-- The value `isize::MAX as usize` on a 64-bit target. -/
def isizeMax : Nat := 2 ^ 63 - 1

/-- Wrapping `usize` subtraction `x - y` (release-mode Rust semantics). -/
def wsub (x y : Nat) : Nat := (x + (USIZE - y % USIZE)) % USIZE

/-- Bitwise complement `!x` on `usize`. -/
def wnot (x : Nat) : Nat := USIZE - 1 - x % USIZE

/-- The rounding formula of `platform.rs` line 32:
`((cap - 1) & !(g - 1)) + g` in wrapping `usize` arithmetic. -/
def roundFormula (raw g : Nat) : Nat :=
  (((wsub raw 1) &&& (wnot (wsub g 1))) + g) % USIZE

/-- Model of `platform::round_capacity(cap, size_of)` with granularity `g`:
`checked_mul`, the rounding formula, then the validity check
`cap == 0 || cap >= isize::MAX as usize / 2` (each failure calls
`invalid_capacity`, which panics). -/
def round_capacity (g cap size_of : Nat) : Except String Nat :=
  if USIZE ≤ cap * size_of then Except.error "invalid capacity" else
  let c := roundFormula (cap * size_of) g
  if c = 0 ∨ isizeMax / 2 ≤ c then Except.error "invalid capacity" else
  Except.ok c

/-- Model of `platform::allocate(cap, size_of)` (linux backend): a zero request
returns the sentinel empty mapping; otherwise the capacity is rounded and
validated and the OS maps `2 * cap` bytes.  `osFail c = true` models the
OS failing to establish the mirrored mapping of rounded size `c` (which
panics).  On success the returned value is the byte size of one half. -/
def allocate (g : Nat) (osFail : Nat → Bool) (cap size_of : Nat) : Except String Nat :=
  if cap = 0 then Except.ok 0 else
  match round_capacity g cap size_of with
  | Except.error e => Except.error e
  | Except.ok c => if osFail c then Except.error "mmap" else Except.ok c

/-- The `RingBuffer<T>` state of `lib.rs`: `cap` bytes in one mirror half,
`base` byte offset of the logical front, `len` live elements, and the
physical storage of the mirrored mapping (element recorded at the physical
offset, in `[0, cap)`, of its starting byte; `none` = uninitialized). -/
structure RingBuffer (α : Type) where
  cap : Nat
  base : Nat
  len : Nat
  mem : Nat → Option α

/-- Read the element whose first byte sits at virtual address `addr` of the
mirrored mapping: the mirror aliases physical offset `addr % cap`. -/
def readAt {α : Type} (rb : RingBuffer α) (addr : Nat) : Option α :=
  rb.mem (addr % rb.cap)

/-- Write an element at virtual address `addr` of the mirrored mapping. -/
def writeAt {α : Type} (rb : RingBuffer α) (addr : Nat) (v : Option α) : RingBuffer α :=
  { rb with mem := fun p => if p = addr % rb.cap then v else rb.mem p }

/-- Model of `RingBuffer::new()`: no allocation, dangling pointer, all fields zero. -/
def RingBuffer.new {α : Type} : RingBuffer α :=
  ⟨0, 0, 0, fun _ => none⟩

/-- Model of `RingBuffer::with_capacity(capacity)`: zero capacity does not allocate,
otherwise allocates a mirrored mapping.  The second component is the panic
(`some message`) if allocation failed. -/
def with_capacity {α : Type} (sz g : Nat) (osFail : Nat → Bool) (n : Nat) :
    RingBuffer α × Option String :=
  if n = 0 then (RingBuffer.new, none) else
  match allocate g osFail n sz with
  | Except.error e => (RingBuffer.new, some e)
  | Except.ok c => (⟨c, 0, 0, fun _ => none⟩, none)

/-- Checked `usize` division: division by zero panics in Rust. -/
def usizeDiv (a b : Nat) : Except String Nat :=
  if b = 0 then Except.error "attempt to divide by zero" else Except.ok (a / b)

/-- Model of `RingBuffer::capacity()`: `self.cap / size_of::<T>()`. -/
def capacityE {α : Type} (sz : Nat) (rb : RingBuffer α) : Except String Nat :=
  usizeDiv rb.cap sz

/-- Model of `RingBuffer::reserved_len()`: `self.cap / size_of::<T>() - self.len`. -/
def reserved_len {α : Type} (sz : Nat) (rb : RingBuffer α) : Except String Nat :=
  match usizeDiv rb.cap sz with
  | Except.error e => Except.error e
  | Except.ok c => Except.ok (c - rb.len)

/-- Copy `count` elements byte-for-byte from the logical window of `src`
(starting at `src.base`) to the start of `dst`'s mapping (addresses
`0, size_of, 2*size_of, ...`), as done by `copy_to_nonoverlapping` in
`RingBuffer::reallocate`. -/
def copyElems {α : Type} (sz : Nat) (src : RingBuffer α) (dst : RingBuffer α) :
    Nat → RingBuffer α
  | 0 => dst
  | n + 1 => writeAt (copyElems sz src dst n) (n * sz) (readAt src (src.base + n * sz))

/-- The logical content of the ring buffer: the element recorded at each of
the `len` slots `base, base + size_of, ...` of the mirrored mapping. -/
def contentOpt {α : Type} (sz : Nat) (rb : RingBuffer α) : List (Option α) :=
  (List.range rb.len).map fun i => rb.mem ((rb.base + i * sz) % rb.cap)

/-- Model of `RingBuffer::reallocate(additional)`: `checked_add`, allocate a fresh
mirrored mapping for `len + additional` elements, copy the `len` live
elements to offset 0, transfer `len`, zero the old buffer's `len`, then
replace `*self` (dropping the emptied old buffer).  Returns the state of
`*self` when the function exits (unchanged if a panic occurred before the
replacement), the list of element values destructed by the replacement of
the old buffer, and the panic message if any. -/
def reallocate {α : Type} (sz g : Nat) (osFail : Nat → Bool)
    (rb : RingBuffer α) (additional : Nat) :
    RingBuffer α × List (Option α) × Option String :=
  if USIZE ≤ rb.len + additional then (rb, [], some "invalid capacity") else
  match allocate g osFail (rb.len + additional) sz with
  | Except.error e => (rb, [], some e)
  | Except.ok c =>
    let nrb0 : RingBuffer α := ⟨c, 0, 0, fun _ => none⟩
    let nrb1 := copyElems sz rb nrb0 rb.len
    let nrb2 := { nrb1 with len := rb.len }
    let oldSelf := { rb with len := 0 }
    (nrb2, contentOpt sz oldSelf, none)

/-- Model of `RingBuffer::reserve(additional)`: reallocate only when the spare
capacity is insufficient.  (The trailing `unreachable_unchecked` hint of
the source is a no-op assertion, shown unreachable separately.) -/
def reserve {α : Type} (sz g : Nat) (osFail : Nat → Bool)
    (rb : RingBuffer α) (additional : Nat) : RingBuffer α × Option String :=
  match reserved_len sz rb with
  | Except.error e => (rb, some e)
  | Except.ok r =>
    if r < additional then
      let (s, _, p) := reallocate sz g osFail rb additional
      (s, p)
    else (rb, none)

/-- Model of `RingBuffer::push(value)`: reserve room for one element, write it at
byte offset `base + len * size_of`, increment `len`. -/
def push {α : Type} (sz g : Nat) (osFail : Nat → Bool)
    (rb : RingBuffer α) (v : α) : RingBuffer α × Option String :=
  match reserve sz g osFail rb 1 with
  | (s, some e) => (s, some e)
  | (rb1, none) =>
    let rb2 := writeAt rb1 (rb1.base + rb1.len * sz) (some v)
    ({ rb2 with len := rb1.len + 1 }, none)

/-- Model of `RingBuffer::pop()`: `None` on empty; otherwise read the element at
`base`, decrement `len`, advance `base` by one element and wrap it by
subtracting `cap` if it reached `cap`. -/
def pop {α : Type} (sz : Nat) (rb : RingBuffer α) : Option α × RingBuffer α :=
  if rb.len = 0 then (none, rb) else
  let v := readAt rb rb.base
  let base1 := rb.base + sz
  let base2 := if rb.cap ≤ base1 then base1 - rb.cap else base1
  (v, { rb with len := rb.len - 1, base := base2 })

/-- Model of `RingBuffer::remove_tail(n)`: clamp `n` to `len`, drop that many
elements from the logical front, advance `base` and wrap it by subtracting
`cap` if it reached `cap`. -/
def remove_tail {α : Type} (sz : Nat) (rb : RingBuffer α) (n : Nat) : RingBuffer α :=
  let m := min rb.len n
  let base1 := rb.base + m * sz
  let base2 := if rb.cap ≤ base1 then base1 - rb.cap else base1
  { rb with len := rb.len - m, base := base2 }

/-- Model of `RingBuffer::truncate(len)`: no-op if `len > self.len`, otherwise drop
the elements past `len` and shorten. -/
def truncate {α : Type} (rb : RingBuffer α) (n : Nat) : RingBuffer α :=
  if rb.len < n then rb else { rb with len := n }

/-- Model of `RingBuffer::clear()`: drop all elements; capacity retained. -/
def clear {α : Type} (rb : RingBuffer α) : RingBuffer α :=
  { rb with len := 0 }

/-- Write the elements of a list at consecutive element slots starting at
virtual byte address `addr` (the `copy_to_nonoverlapping` of
`extend_from_slice`, or the fill loop of `resize_with`). -/
def writeList {α : Type} (sz : Nat) (rb : RingBuffer α) (addr : Nat) :
    List α → RingBuffer α
  | [] => rb
  | v :: vs => writeList sz (writeAt rb addr (some v)) (addr + sz) vs

/-- Model of `RingBuffer::extend_from_slice(other)`: reserve room for
`other.len()` elements, copy them after the live window, extend `len`. -/
def extend_from_slice {α : Type} (sz g : Nat) (osFail : Nat → Bool)
    (rb : RingBuffer α) (other : List α) : RingBuffer α × Option String :=
  match reserve sz g osFail rb other.length with
  | (s, some e) => (s, some e)
  | (rb1, none) =>
    let rb2 := writeList sz rb1 (rb1.base + rb1.len * sz) other
    ({ rb2 with len := rb1.len + other.length }, none)

/-- Model of `RingBuffer::resize_with(new_len, f)`: truncate when `new_len ≤ len`,
otherwise reserve and fill the new slots in order with the successive
values of the generator (modelled as `f 0, f 1, ...`). -/
def resize_with {α : Type} (sz g : Nat) (osFail : Nat → Bool)
    (rb : RingBuffer α) (new_len : Nat) (f : Nat → α) : RingBuffer α × Option String :=
  if new_len ≤ rb.len then (truncate rb new_len, none) else
  match reserve sz g osFail rb (new_len - rb.len) with
  | (s, some e) => (s, some e)
  | (rb1, none) =>
    let rb2 := writeList sz rb1 (rb1.base + rb1.len * sz)
      ((List.range (new_len - rb1.len)).map f)
    ({ rb2 with len := new_len }, none)

/-- The bookkeeping invariant of the structure: the live window fits in one
mirror half, and `base` is normalized into the lower mirror (`base < cap`
once allocated, `base = 0` in the never-allocated state). -/
def Inv {α : Type} (sz : Nat) (rb : RingBuffer α) : Prop :=
  rb.len * sz ≤ rb.cap ∧ (rb.base < rb.cap ∨ (rb.cap = 0 ∧ rb.base = 0))

/-- The refinement relation: the invariant holds and the logical content is
the list `vs` (every live slot initialized with the expected value). -/
def Abstracts {α : Type} (sz : Nat) (rb : RingBuffer α) (vs : List α) : Prop :=
  Inv sz rb ∧ contentOpt sz rb = vs.map some

/-- States reachable by sequences of successful public operations. -/
inductive Reachable (α : Type) (sz g : Nat) (osFail : Nat → Bool) :
    RingBuffer α → Prop where
  | new : Reachable α sz g osFail RingBuffer.new
  | with_capacity (n : Nat) (rb : RingBuffer α) :
      with_capacity sz g osFail n = (rb, none) → Reachable α sz g osFail rb
  | push (rb rb' : RingBuffer α) (v : α) : Reachable α sz g osFail rb →
      push sz g osFail rb v = (rb', none) → Reachable α sz g osFail rb'
  | pop (rb : RingBuffer α) : Reachable α sz g osFail rb →
      Reachable α sz g osFail (pop sz rb).2
  | remove_tail (rb : RingBuffer α) (n : Nat) : Reachable α sz g osFail rb →
      Reachable α sz g osFail (remove_tail sz rb n)
  | truncate (rb : RingBuffer α) (n : Nat) : Reachable α sz g osFail rb →
      Reachable α sz g osFail (truncate rb n)
  | clear (rb : RingBuffer α) : Reachable α sz g osFail rb →
      Reachable α sz g osFail (clear rb)
  | extend_from_slice (rb rb' : RingBuffer α) (other : List α) :
      Reachable α sz g osFail rb →
      extend_from_slice sz g osFail rb other = (rb', none) →
      Reachable α sz g osFail rb'
  | reserve (rb rb' : RingBuffer α) (k : Nat) : Reachable α sz g osFail rb →
      reserve sz g osFail rb k = (rb', none) → Reachable α sz g osFail rb'
  | resize_with (rb rb' : RingBuffer α) (n : Nat) (f : Nat → α) :
      Reachable α sz g osFail rb →
      resize_with sz g osFail rb n f = (rb', none) → Reachable α sz g osFail rb'

/-- Push a whole list, stopping at the first panic. -/
def pushAll {α : Type} (sz g : Nat) (osFail : Nat → Bool)
    (rb : RingBuffer α) : List α → RingBuffer α × Option String
  | [] => (rb, none)
  | v :: vs =>
    match push sz g osFail rb v with
    | (s, some e) => (s, some e)
    | (rb1, none) => pushAll sz g osFail rb1 vs

/-- Pop `n` times, collecting the returned values in order. -/
def popList {α : Type} (sz : Nat) (rb : RingBuffer α) :
    Nat → List (Option α) × RingBuffer α
  | 0 => ([], rb)
  | n + 1 =>
    let (v, rb1) := pop sz rb
    let (vs, rb2) := popList sz rb1 n
    (v :: vs, rb2)

theorem wsub_one_eq {x : Nat} (h1 : 1 ≤ x) (h2 : x < USIZE) : wsub x 1 = x - 1 := by
  simp only [wsub, USIZE] at *
  omega

theorem land_mask (x k : Nat) (hx : x < 2 ^ 64) (hk : k ≤ 64) :
    x &&& (2 ^ 64 - 2 ^ k) = 2 ^ k * (x / 2 ^ k) := by
  have hmask : 2 ^ 64 - 2 ^ k = (2 ^ (64 - k) - 1) <<< k := by
    rw [Nat.shiftLeft_eq, Nat.sub_mul, Nat.one_mul, ← Nat.pow_add]
    rw [Nat.sub_add_cancel hk]
  have hrhs : 2 ^ k * (x / 2 ^ k) = (x >>> k) <<< k := by
    rw [Nat.shiftLeft_eq, Nat.shiftRight_eq_div_pow, Nat.mul_comm]
  rw [hmask, hrhs]
  apply Nat.eq_of_testBit_eq
  intro i
  rw [Nat.testBit_land, Nat.testBit_shiftLeft, Nat.testBit_shiftLeft,
    Nat.testBit_shiftRight, Nat.testBit_two_pow_sub_one]
  by_cases hik : k ≤ i
  · by_cases hi64 : i < 64
    · simp [ge_iff_le, hik, Nat.add_sub_cancel' hik, show i - k < 64 - k by omega]
    · have hxi : x.testBit i = false :=
        Nat.testBit_lt_two_pow
          (lt_of_lt_of_le hx (Nat.pow_le_pow_right (by norm_num) (by omega)))
      simp [ge_iff_le, hik, Nat.add_sub_cancel' hik, hxi,
        show ¬(i - k < 64 - k) by omega]
  · simp [ge_iff_le, hik]

theorem roundFormula_eq (raw k : Nat) (h1 : 1 ≤ raw) (h2 : raw < USIZE) (hk : k ≤ 63) :
    roundFormula raw (2 ^ k) = (2 ^ k * ((raw - 1) / 2 ^ k) + 2 ^ k) % USIZE := by
  have hg1 : 1 ≤ 2 ^ k := Nat.one_le_two_pow
  have hgU : (2 : Nat) ^ k < 2 ^ 64 := Nat.pow_lt_pow_right (by norm_num) (by omega)
  have e1 : wsub raw 1 = raw - 1 := wsub_one_eq h1 h2
  have e2 : wnot (wsub (2 ^ k) 1) = USIZE - 2 ^ k := by
    simp only [wsub, wnot, USIZE] at *
    omega
  have e3 := land_mask (raw - 1) k (by simp only [USIZE] at h2; omega) (by omega)
  simp only [roundFormula, e1, e2, USIZE] at *
  rw [e3]

theorem roundFormula_no_overflow (raw k : Nat) (h1 : 1 ≤ raw) (hk : k ≤ 63)
    (h3 : raw + 2 ^ k ≤ USIZE) :
    roundFormula raw (2 ^ k) = 2 ^ k * ((raw - 1) / 2 ^ k + 1) := by
  have hg1 : 1 ≤ 2 ^ k := Nat.one_le_two_pow
  have h2 : raw < USIZE := by simp only [USIZE] at *; omega
  rw [roundFormula_eq raw k h1 h2 hk]
  have hle : 2 ^ k * ((raw - 1) / 2 ^ k) ≤ raw - 1 := by
    rw [Nat.mul_comm]; exact Nat.div_mul_le_self _ _
  rw [Nat.mul_succ]
  apply Nat.mod_eq_of_lt
  simp only [USIZE] at *
  omega

theorem roundFormula_overflow (raw k : Nat) (h2 : raw < USIZE) (hk : k ≤ 63)
    (h3 : USIZE < raw + 2 ^ k) :
    roundFormula raw (2 ^ k) = 0 := by
  have hg1 : 1 ≤ 2 ^ k := Nat.one_le_two_pow
  have hgU : (2 : Nat) ^ k < 2 ^ 64 := Nat.pow_lt_pow_right (by norm_num) (by omega)
  have hmul : 2 ^ k * 2 ^ (64 - k) = 2 ^ 64 := by
    rw [← Nat.pow_add]; congr 1; omega
  have h1 : 1 ≤ raw := by simp only [USIZE] at *; omega
  rw [roundFormula_eq raw k h1 h2 hk]
  have hmul2 : 2 ^ (64 - k) * 2 ^ k = 2 ^ 64 := by rw [Nat.mul_comm]; exact hmul
  have hdiv : (raw - 1) / 2 ^ k = 2 ^ (64 - k) - 1 := by
    have hub : (raw - 1) / 2 ^ k < 2 ^ (64 - k) := by
      rw [Nat.div_lt_iff_lt_mul (by omega), hmul2]
      simp only [USIZE] at *
      omega
    have hlb : 2 ^ (64 - k) - 1 ≤ (raw - 1) / 2 ^ k := by
      rw [Nat.le_div_iff_mul_le (by omega)]
      have hexp : (2 ^ (64 - k) - 1) * 2 ^ k = 2 ^ (64 - k) * 2 ^ k - 2 ^ k := by
        rw [Nat.sub_mul, Nat.one_mul]
      rw [hexp, hmul2]
      simp only [USIZE] at *
      omega
    omega
  rw [hdiv]
  have hone : 1 ≤ 2 ^ (64 - k) := Nat.one_le_two_pow
  have : 2 ^ k * (2 ^ (64 - k) - 1) + 2 ^ k = 2 ^ 64 := by
    rw [Nat.mul_sub, Nat.mul_one]
    omega
  simp only [USIZE]
  rw [this, Nat.mod_self]

/-- C3: for every `rawBytes ≥ 1` (a `usize` value) and every power-of-two
granularity `g = 2 ^ k` (a `usize` value, so `k ≤ 63`), the allocator's
rounding formula `((rawBytes - 1) & !(g - 1)) + g` equals the least
multiple of `g` that is `≥ rawBytes` — a true ceiling, so an exact
multiple of `g` (including exactly one granule) is returned unchanged —
whenever the computation does not wrap (it wraps exactly to 0, which is
rejected); and `round_capacity` rejects the result (fatally) iff it is
zero or at least `isize::MAX / 2`. -/
theorem C3_round_capacity_ceiling (raw k : Nat) (h1 : 1 ≤ raw) (h2 : raw < USIZE)
    (hk : k ≤ 63) :
    (raw + 2 ^ k ≤ USIZE →
      (2 ^ k ∣ roundFormula raw (2 ^ k) ∧
       raw ≤ roundFormula raw (2 ^ k) ∧
       (∀ m, 2 ^ k ∣ m → raw ≤ m → roundFormula raw (2 ^ k) ≤ m)) ∧
      (2 ^ k ∣ raw → roundFormula raw (2 ^ k) = raw)) ∧
    (USIZE < raw + 2 ^ k → roundFormula raw (2 ^ k) = 0) ∧
    (∀ cap size_of, cap * size_of = raw →
      (round_capacity (2 ^ k) cap size_of = Except.ok (roundFormula raw (2 ^ k)) ↔
        ¬(roundFormula raw (2 ^ k) = 0 ∨ isizeMax / 2 ≤ roundFormula raw (2 ^ k)))) := by
  have hg1 : 1 ≤ 2 ^ k := Nat.one_le_two_pow
  refine ⟨fun h3 => ?_, fun h3 => roundFormula_overflow raw k h2 hk h3,
    fun cap size_of hcs => ?_⟩
  · have heq := roundFormula_no_overflow raw k h1 hk h3
    have hdm := Nat.div_add_mod (raw - 1) (2 ^ k)
    have hmlt : (raw - 1) % 2 ^ k < 2 ^ k := Nat.mod_lt _ (by omega)
    have hceil : raw ≤ roundFormula raw (2 ^ k) := by
      rw [heq, Nat.mul_succ]
      omega
    have hmin : ∀ m, 2 ^ k ∣ m → raw ≤ m → roundFormula raw (2 ^ k) ≤ m := by
      intro m hdvd hram
      obtain ⟨t, ht⟩ := hdvd
      have hqt : (raw - 1) / 2 ^ k < t := by
        have hlt : raw - 1 < m := by omega
        rw [ht, Nat.mul_comm] at hlt
        exact (Nat.div_lt_iff_lt_mul (by omega)).2 hlt
      rw [heq, ht]
      exact Nat.mul_le_mul_left _ (by omega)
    refine ⟨⟨⟨_, heq⟩, hceil, hmin⟩, fun hdvd => ?_⟩
    exact Nat.le_antisymm (hmin raw hdvd le_rfl) hceil
  · simp only [round_capacity, hcs]
    rw [if_neg (show ¬ USIZE ≤ raw by omega)]
    by_cases hrej : roundFormula raw (2 ^ k) = 0 ∨ isizeMax / 2 ≤ roundFormula raw (2 ^ k)
    · rw [if_pos hrej]
      simp [hrej]
    · rw [if_neg hrej]
      simp [hrej]

theorem C3_round_capacity_ceiling_witness :
    ((4096 : Nat) + 2 ^ 12 ≤ USIZE →
      ((2 : Nat) ^ 12 ∣ roundFormula 4096 (2 ^ 12) ∧
       4096 ≤ roundFormula 4096 (2 ^ 12) ∧
       (∀ m, 2 ^ 12 ∣ m → 4096 ≤ m → roundFormula 4096 (2 ^ 12) ≤ m)) ∧
      ((2 : Nat) ^ 12 ∣ 4096 → roundFormula 4096 (2 ^ 12) = 4096)) ∧
    (USIZE < 4096 + 2 ^ 12 → roundFormula 4096 (2 ^ 12) = 0) ∧
    (∀ cap size_of, cap * size_of = 4096 →
      (round_capacity (2 ^ 12) cap size_of = Except.ok (roundFormula 4096 (2 ^ 12)) ↔
        ¬(roundFormula 4096 (2 ^ 12) = 0 ∨ isizeMax / 2 ≤ roundFormula 4096 (2 ^ 12)))) :=
  C3_round_capacity_ceiling 4096 12 (by norm_num)
    (by simp only [USIZE]; norm_num) (by norm_num)

theorem range_map_getElem {α : Type} (l : List α) :
    (List.range l.length).map (fun i => l[i]?) = l.map some := by
  induction l with
  | nil => rfl
  | cons v t ih =>
    simp only [List.length_cons, List.range_succ_eq_map, List.map_cons, List.map_map]
    refine congrArg₂ _ (by simp) ?_
    have h1 : ((fun i => (v :: t)[i]?) ∘ Nat.succ) = fun i => t[i]? := by
      funext i
      simp
    rw [h1, ih]

theorem range_map_drop {β : Type} (f : Nat → β) (n m : Nat) :
    ((List.range n).map f).drop m = (List.range (n - m)).map fun i => f (m + i) := by
  apply List.ext_getElem
  · simp
  · intro i h1 h2
    simp

theorem wrap_add_mod (cap x y : Nat) :
    ((if cap ≤ x then x - cap else x) + y) % cap = (x + y) % cap := by
  split
  · rename_i h
    have hx : (x - cap + y) + cap = x + y := by omega
    conv_rhs => rw [← hx]
    rw [Nat.add_mod_right]
  · rfl

theorem wrap_lt {cap x : Nat} (hx : x < cap + cap) :
    (if cap ≤ x then x - cap else x) < cap := by
  split <;> omega

theorem slot_inj (sz cap a : Nat) (hsz : 0 < sz) (m : Nat) {i j : Nat}
    (hm : m * sz ≤ cap) (hi : i < m) (hj : j < m)
    (heq : (a + i * sz) % cap = (a + j * sz) % cap) : i = j := by
  have core : ∀ u v : Nat, u ≤ v → v < m →
      (a + u * sz) % cap = (a + v * sz) % cap → u = v := by
    intro u v huv hv he
    by_contra hne
    have hlt : u < v := lt_of_le_of_ne huv hne
    have hmod : Nat.ModEq cap (a + u * sz) (a + v * sz) := he
    have h2 : Nat.ModEq cap (u * sz) (v * sz) := Nat.ModEq.add_left_cancel' a hmod
    have h3 : cap ∣ v * sz - u * sz :=
      (Nat.modEq_iff_dvd' (Nat.mul_le_mul_right sz huv)).1 h2
    have husz : u * sz < v * sz := Nat.mul_lt_mul_of_lt_of_le hlt le_rfl hsz
    have hvsz : v * sz < m * sz := Nat.mul_lt_mul_of_lt_of_le hv le_rfl hsz
    have := Nat.le_of_dvd (by omega) h3
    omega
  rcases Nat.le_total i j with hle | hle
  · exact core i j hle hj heq
  · exact (core j i hle hi heq.symm).symm

theorem writeAt_cap {α : Type} (rb : RingBuffer α) (addr : Nat) (v : Option α) :
    (writeAt rb addr v).cap = rb.cap := rfl

theorem writeAt_base {α : Type} (rb : RingBuffer α) (addr : Nat) (v : Option α) :
    (writeAt rb addr v).base = rb.base := rfl

theorem writeAt_len {α : Type} (rb : RingBuffer α) (addr : Nat) (v : Option α) :
    (writeAt rb addr v).len = rb.len := rfl

theorem writeAt_mem_eq {α : Type} (rb : RingBuffer α) (addr : Nat) (v : Option α) :
    (writeAt rb addr v).mem (addr % rb.cap) = v := by
  simp [writeAt]

theorem writeAt_mem_ne {α : Type} (rb : RingBuffer α) (addr : Nat) (v : Option α)
    (p : Nat) (h : p ≠ addr % rb.cap) : (writeAt rb addr v).mem p = rb.mem p := by
  simp [writeAt, h]

theorem copyElems_cap {α : Type} (sz : Nat) (src dst : RingBuffer α) (n : Nat) :
    (copyElems sz src dst n).cap = dst.cap := by
  induction n with
  | zero => rfl
  | succ n ih => simpa [copyElems, writeAt] using ih

theorem copyElems_base {α : Type} (sz : Nat) (src dst : RingBuffer α) (n : Nat) :
    (copyElems sz src dst n).base = dst.base := by
  induction n with
  | zero => rfl
  | succ n ih => simpa [copyElems, writeAt] using ih

theorem copyElems_len {α : Type} (sz : Nat) (src dst : RingBuffer α) (n : Nat) :
    (copyElems sz src dst n).len = dst.len := by
  induction n with
  | zero => rfl
  | succ n ih => simpa [copyElems, writeAt] using ih

theorem copyElems_mem_lt {α : Type} (sz : Nat) (hsz : 0 < sz) (src dst : RingBuffer α)
    (n : Nat) (hn : n * sz ≤ dst.cap) {i : Nat} (hi : i < n) :
    (copyElems sz src dst n).mem ((i * sz) % dst.cap) = readAt src (src.base + i * sz) := by
  induction n with
  | zero => omega
  | succ n ih =>
    show (writeAt (copyElems sz src dst n) (n * sz) (readAt src (src.base + n * sz))).mem _ = _
    by_cases hin : i = n
    · rw [hin]
      have h := writeAt_mem_eq (copyElems sz src dst n) (n * sz)
        (readAt src (src.base + n * sz))
      rwa [copyElems_cap] at h
    · have hi' : i < n := by omega
      have hne : (i * sz) % dst.cap ≠ (n * sz) % dst.cap := by
        intro he
        exact hin (slot_inj sz dst.cap 0 hsz (n + 1) hn (by omega) (by omega)
          (by simpa using he))
      have hstep := writeAt_mem_ne (copyElems sz src dst n) (n * sz)
        (readAt src (src.base + n * sz)) ((i * sz) % dst.cap)
        (by rwa [copyElems_cap])
      have hmono : n * sz ≤ (n + 1) * sz := Nat.mul_le_mul_right sz (Nat.le_succ n)
      rw [hstep, ih (le_trans hmono hn) hi']

theorem copyElems_mem_other {α : Type} (sz : Nat) (src dst : RingBuffer α)
    {n : Nat} {p : Nat} (hp : ∀ i, i < n → p ≠ (i * sz) % dst.cap) :
    (copyElems sz src dst n).mem p = dst.mem p := by
  induction n with
  | zero => rfl
  | succ n ih =>
    show (writeAt (copyElems sz src dst n) (n * sz) (readAt src (src.base + n * sz))).mem _ = _
    have hstep := writeAt_mem_ne (copyElems sz src dst n) (n * sz)
      (readAt src (src.base + n * sz)) p
      (by rw [copyElems_cap]; exact hp n (by omega))
    rw [hstep, ih (fun i hi => hp i (by omega))]

theorem writeList_cap {α : Type} (sz : Nat) (rb : RingBuffer α) (addr : Nat)
    (l : List α) : (writeList sz rb addr l).cap = rb.cap := by
  induction l generalizing rb addr with
  | nil => rfl
  | cons v t ih => simpa [writeList, writeAt] using ih (writeAt rb addr (some v)) (addr + sz)

theorem writeList_base {α : Type} (sz : Nat) (rb : RingBuffer α) (addr : Nat)
    (l : List α) : (writeList sz rb addr l).base = rb.base := by
  induction l generalizing rb addr with
  | nil => rfl
  | cons v t ih => simpa [writeList, writeAt] using ih (writeAt rb addr (some v)) (addr + sz)

theorem writeList_len {α : Type} (sz : Nat) (rb : RingBuffer α) (addr : Nat)
    (l : List α) : (writeList sz rb addr l).len = rb.len := by
  induction l generalizing rb addr with
  | nil => rfl
  | cons v t ih => simpa [writeList, writeAt] using ih (writeAt rb addr (some v)) (addr + sz)

theorem writeList_mem_other {α : Type} (sz : Nat) (rb : RingBuffer α) (addr : Nat)
    (l : List α) (p : Nat) (hp : ∀ i, i < l.length → p ≠ (addr + i * sz) % rb.cap) :
    (writeList sz rb addr l).mem p = rb.mem p := by
  induction l generalizing rb addr with
  | nil => rfl
  | cons v t ih =>
    show (writeList sz (writeAt rb addr (some v)) (addr + sz) t).mem p = _
    have hstep := ih (writeAt rb addr (some v)) (addr + sz) (fun i hi => by
      rw [writeAt_cap]
      have := hp (i + 1) (by simpa using Nat.succ_lt_succ hi)
      rwa [show addr + (i + 1) * sz = addr + sz + i * sz by ring] at this)
    rw [hstep]
    exact writeAt_mem_ne rb addr (some v) p (by
      have := hp 0 (by simp)
      simpa using this)

theorem writeList_mem_get {α : Type} (sz : Nat) (rb : RingBuffer α) (addr : Nat)
    (l : List α)
    (hinj : ∀ i j, i < l.length → j < l.length →
      (addr + i * sz) % rb.cap = (addr + j * sz) % rb.cap → i = j) :
    ∀ i, i < l.length → (writeList sz rb addr l).mem ((addr + i * sz) % rb.cap) = l[i]? := by
  induction l generalizing rb addr with
  | nil => intro i hi; simp at hi
  | cons v t ih =>
    intro i hi
    show (writeList sz (writeAt rb addr (some v)) (addr + sz) t).mem _ = _
    match i with
    | 0 =>
      have hother := writeList_mem_other sz (writeAt rb addr (some v)) (addr + sz) t
        ((addr + 0 * sz) % rb.cap) (fun j hj => by
          rw [writeAt_cap]
          intro he
          have : (0 : Nat) = j + 1 := hinj 0 (j + 1) (by simp)
            (by simpa using Nat.succ_lt_succ hj)
            (by rwa [show addr + (j + 1) * sz = addr + sz + j * sz by ring])
          omega)
      rw [hother]
      have h := writeAt_mem_eq rb addr (some v)
      simpa using h
    | i + 1 =>
      have hinj' : ∀ a b, a < t.length → b < t.length →
          (addr + sz + a * sz) % (writeAt rb addr (some v)).cap =
            (addr + sz + b * sz) % (writeAt rb addr (some v)).cap → a = b := by
        intro a b ha hb he
        rw [writeAt_cap] at he
        rw [show addr + sz + a * sz = addr + (a + 1) * sz by ring,
          show addr + sz + b * sz = addr + (b + 1) * sz by ring] at he
        have := hinj (a + 1) (b + 1) (by simpa using Nat.succ_lt_succ ha)
          (by simpa using Nat.succ_lt_succ hb) he
        omega
      have := ih (writeAt rb addr (some v)) (addr + sz) hinj' i (by simpa using hi)
      rw [writeAt_cap] at this
      rw [show addr + sz + i * sz = addr + (i + 1) * sz by ring] at this
      rw [this]
      simp

theorem roundFormula_ge (raw k : Nat) (h1 : 1 ≤ raw) (h2 : raw < USIZE) (hk : k ≤ 63)
    (hne : roundFormula raw (2 ^ k) ≠ 0) : raw ≤ roundFormula raw (2 ^ k) := by
  by_cases hov : raw + 2 ^ k ≤ USIZE
  · rw [roundFormula_no_overflow raw k h1 hk hov]
    have hdm := Nat.div_add_mod (raw - 1) (2 ^ k)
    have hg1 : (1 : Nat) ≤ 2 ^ k := Nat.one_le_two_pow
    have hmlt : (raw - 1) % 2 ^ k < 2 ^ k := Nat.mod_lt _ (by omega)
    rw [Nat.mul_succ]
    omega
  · exact absurd (roundFormula_overflow raw k h2 hk (by omega)) hne

theorem round_capacity_ok {g n sz c : Nat} (h : round_capacity g n sz = Except.ok c) :
    n * sz < USIZE ∧ c = roundFormula (n * sz) g ∧ c ≠ 0 ∧ c < isizeMax / 2 := by
  simp only [round_capacity] at h
  split at h
  · exact absurd h (by simp)
  · rename_i h1
    split at h
    · exact absurd h (by simp)
    · rename_i h2
      push_neg at h2
      injection h with he
      exact ⟨by omega, he.symm, by omega, by omega⟩

theorem allocate_ok_inv {g : Nat} {osFail : Nat → Bool} {n sz c : Nat}
    (h : allocate g osFail n sz = Except.ok c) :
    (n = 0 ∧ c = 0) ∨
    (n ≠ 0 ∧ round_capacity g n sz = Except.ok c ∧ osFail c = false) := by
  simp only [allocate] at h
  split at h
  · rename_i h0
    injection h with he
    exact Or.inl ⟨h0, he.symm⟩
  · rename_i h0
    cases hrc : round_capacity g n sz with
    | error e => rw [hrc] at h; exact absurd h (by simp)
    | ok c2 =>
      rw [hrc] at h
      simp only at h
      split at h
      · exact absurd h (by simp)
      · rename_i hof
        injection h with he
        refine Or.inr ⟨h0, ?_, ?_⟩
        · rw [he]
        · rw [← he]
          simpa using hof

theorem allocate_ge {g k : Nat} {osFail : Nat → Bool} {n sz c : Nat}
    (hsz : 0 < sz) (hg : g = 2 ^ k) (hk : k ≤ 63) (hn : 0 < n)
    (h : allocate g osFail n sz = Except.ok c) :
    n * sz ≤ c ∧ 0 < c := by
  rcases allocate_ok_inv h with ⟨h0, _⟩ | ⟨_, hrc, _⟩
  · omega
  · obtain ⟨hlt, hc, hne, _⟩ := round_capacity_ok hrc
    subst hg hc
    have h1 : 1 ≤ n * sz := Nat.mul_pos hn hsz
    have hge := roundFormula_ge (n * sz) k h1 hlt hk hne
    exact ⟨hge, by omega⟩

theorem reallocate_ok {α : Type} {sz g k : Nat} {osFail : Nat → Bool}
    {rb rb' : RingBuffer α} {dropped : List (Option α)} {add : Nat}
    (hsz : 0 < sz) (hg : g = 2 ^ k) (hk : k ≤ 63) (hadd : 0 < rb.len + add)
    (h : reallocate sz g osFail rb add = (rb', dropped, none)) :
    allocate g osFail (rb.len + add) sz = Except.ok rb'.cap ∧
    rb'.base = 0 ∧ rb'.len = rb.len ∧ (rb.len + add) * sz ≤ rb'.cap ∧ 0 < rb'.cap ∧
    dropped = [] ∧
    (∀ i, i < rb.len → rb'.mem ((i * sz) % rb'.cap) = readAt rb (rb.base + i * sz)) ∧
    contentOpt sz rb' = contentOpt sz rb := by
  simp only [reallocate] at h
  split at h
  · exact absurd h (by simp)
  · cases hal : allocate g osFail (rb.len + add) sz with
    | error e => rw [hal] at h; exact absurd h (by simp)
    | ok c =>
      rw [hal] at h
      simp only at h
      rw [Prod.mk.injEq, Prod.mk.injEq] at h
      obtain ⟨hA, hB, -⟩ := h
      subst hA
      subst hB
      have hge := allocate_ge hsz hg hk hadd hal
      have hlencap : rb.len * sz ≤ c := by
        have := Nat.mul_le_mul_right sz (Nat.le_add_right rb.len add)
        omega
      have hcap : ({ copyElems sz rb ⟨c, 0, 0, fun _ => none⟩ rb.len with
          len := rb.len } : RingBuffer α).cap = c := by
        show (copyElems sz rb ⟨c, 0, 0, fun _ => none⟩ rb.len).cap = c
        rw [copyElems_cap]
      have hbase : ({ copyElems sz rb ⟨c, 0, 0, fun _ => none⟩ rb.len with
          len := rb.len } : RingBuffer α).base = 0 := by
        show (copyElems sz rb ⟨c, 0, 0, fun _ => none⟩ rb.len).base = 0
        rw [copyElems_base]
      refine ⟨by rw [hcap], hbase, rfl, by rw [hcap]; exact hge.1,
        by rw [hcap]; exact hge.2, by simp [contentOpt], fun i hi => ?_, ?_⟩
      · rw [hcap]
        exact copyElems_mem_lt sz hsz rb (⟨c, 0, 0, fun _ => none⟩ : RingBuffer α)
          rb.len hlencap hi
      · simp only [contentOpt, copyElems_base, copyElems_cap, Nat.zero_add]
        apply List.map_congr_left
        intro a ha
        rw [List.mem_range] at ha
        have hml := copyElems_mem_lt sz hsz rb
          (⟨c, 0, 0, fun _ => none⟩ : RingBuffer α) rb.len hlencap ha
        exact hml

theorem reserve_ok {α : Type} {sz g k : Nat} {osFail : Nat → Bool}
    {rb rb' : RingBuffer α} {add : Nat}
    (hsz : 0 < sz) (hg : g = 2 ^ k) (hk : k ≤ 63) (hInv : Inv sz rb)
    (h : reserve sz g osFail rb add = (rb', none)) :
    rb'.len = rb.len ∧ Inv sz rb' ∧ rb.len + add ≤ rb'.cap / sz ∧
    contentOpt sz rb' = contentOpt sz rb ∧
    (add ≤ rb.cap / sz - rb.len → rb' = rb) := by
  simp only [reserve, reserved_len, usizeDiv] at h
  rw [if_neg (by omega : ¬ sz = 0)] at h
  simp only at h
  split at h
  · rename_i hlt
    rcases hR : reallocate sz g osFail rb add with ⟨s, dropped, p⟩
    rw [hR] at h
    simp only at h
    rw [Prod.mk.injEq] at h
    obtain ⟨hA, hp⟩ := h
    subst hA
    subst hp
    obtain ⟨-, hbase, hlen, hmul, hcpos, -, -, hcnt⟩ :=
      reallocate_ok hsz hg hk (by omega) hR
    have hdiv : rb.len + add ≤ s.cap / sz := (Nat.le_div_iff_mul_le hsz).2 hmul
    have hlensz : s.len * sz ≤ (rb.len + add) * sz :=
      Nat.mul_le_mul_right sz (by omega)
    exact ⟨hlen, ⟨by omega, Or.inl (by omega)⟩, hdiv, hcnt, fun hc => by omega⟩
  · rename_i hge
    rw [Prod.mk.injEq] at h
    obtain ⟨hA, -⟩ := h
    subst hA
    have hld : rb.len ≤ rb.cap / sz := (Nat.le_div_iff_mul_le hsz).2 hInv.1
    exact ⟨rfl, hInv, by omega, rfl, fun _ => rfl⟩

theorem push_full {α : Type} {sz g k : Nat} {osFail : Nat → Bool}
    {rb rb' : RingBuffer α} {v : α}
    (hsz : 0 < sz) (hg : g = 2 ^ k) (hk : k ≤ 63) (hInv : Inv sz rb)
    (h : push sz g osFail rb v = (rb', none)) :
    Inv sz rb' ∧ rb'.len = rb.len + 1 ∧
    contentOpt sz rb' = contentOpt sz rb ++ [some v] := by
  simp only [push] at h
  rcases hres : reserve sz g osFail rb 1 with ⟨rb1, p⟩
  rw [hres] at h
  cases p with
  | some e => simp at h
  | none =>
    simp only at h
    rw [Prod.mk.injEq] at h
    obtain ⟨hA, -⟩ := h
    subst hA
    obtain ⟨hlen1, hInv1, hcap1, hcnt1, -⟩ := reserve_ok hsz hg hk hInv hres
    have hcc : (rb.len + 1) * sz ≤ rb1.cap := (Nat.le_div_iff_mul_le hsz).1 hcap1
    have hcc1 : (rb1.len + 1) * sz ≤ rb1.cap := by rw [hlen1]; exact hcc
    have hcap0 : 0 < rb1.cap := by
      have h1 : 1 * sz ≤ (rb.len + 1) * sz := Nat.mul_le_mul_right sz (by omega)
      omega
    have hb1 : rb1.base < rb1.cap := by
      rcases hInv1.2 with hb | ⟨hc0, -⟩
      · exact hb
      · omega
    refine ⟨⟨?_, Or.inl hb1⟩, by show rb1.len + 1 = rb.len + 1; omega, ?_⟩
    · show (rb1.len + 1) * sz ≤ rb1.cap
      exact hcc1
    · show contentOpt sz ({ writeAt rb1 (rb1.base + rb1.len * sz) (some v) with
        len := rb1.len + 1 }) = _
      rw [← hcnt1]
      simp only [contentOpt, List.range_succ, List.map_append, List.map_cons,
        List.map_nil, writeAt_base, writeAt_cap]
      congr 1
      · apply List.map_congr_left
        intro a ha
        rw [List.mem_range] at ha
        apply writeAt_mem_ne
        intro he
        have ha2 := slot_inj sz rb1.cap rb1.base hsz (rb1.len + 1) hcc1
          (by omega) (by omega) he
        omega
      · have := writeAt_mem_eq rb1 (rb1.base + rb1.len * sz) (some v)
        rw [this]

theorem contentOpt_shift {α : Type} (sz : Nat) (rb : RingBuffer α) (d L : Nat) :
    contentOpt sz { rb with
        len := L
        base := if rb.cap ≤ rb.base + d then rb.base + d - rb.cap else rb.base + d } =
      (List.range L).map fun i => rb.mem ((rb.base + d + i * sz) % rb.cap) := by
  show (List.range L).map (fun i => rb.mem
      (((if rb.cap ≤ rb.base + d then rb.base + d - rb.cap else rb.base + d) + i * sz) %
        rb.cap)) = _
  apply List.map_congr_left
  intro a _
  apply congrArg
  exact wrap_add_mod rb.cap (rb.base + d) (a * sz)

theorem pop_inv {α : Type} {sz : Nat} (hsz : 0 < sz) {rb : RingBuffer α}
    (hInv : Inv sz rb) : Inv sz (pop sz rb).2 := by
  simp only [pop]
  split
  · exact hInv
  · rename_i hlen
    have hsle : sz ≤ rb.cap := by
      have h1 : 1 * sz ≤ rb.len * sz := Nat.mul_le_mul_right sz (by omega)
      have h2 := hInv.1
      omega
    have hb : rb.base < rb.cap := by
      rcases hInv.2 with hb | ⟨hc0, -⟩
      · exact hb
      · omega
    refine ⟨?_, Or.inl ?_⟩
    · show (rb.len - 1) * sz ≤ rb.cap
      have h1 : (rb.len - 1) * sz ≤ rb.len * sz := Nat.mul_le_mul_right sz (by omega)
      have h2 := hInv.1
      omega
    · show (if rb.cap ≤ rb.base + sz then rb.base + sz - rb.cap else rb.base + sz) < rb.cap
      exact wrap_lt (by omega)

theorem pop_spec {α : Type} {sz : Nat} (hsz : 0 < sz) {rb : RingBuffer α}
    {v : α} {vs : List α} (habs : Abstracts sz rb (v :: vs)) :
    (pop sz rb).1 = some v ∧ Abstracts sz (pop sz rb).2 vs ∧
    (pop sz rb).2.len = rb.len - 1 := by
  have hlen : rb.len = vs.length + 1 := by
    have h1 := congrArg List.length habs.2
    simpa [contentOpt] using h1
  have hne : ¬ rb.len = 0 := by omega
  have hc : (List.range rb.len).map
      (fun i => rb.mem ((rb.base + i * sz) % rb.cap)) = some v :: vs.map some := habs.2
  rw [hlen, List.range_succ_eq_map, List.map_cons, List.map_map] at hc
  rw [List.cons.injEq] at hc
  obtain ⟨hc0, hcs⟩ := hc
  refine ⟨?_, ⟨pop_inv hsz habs.1, ?_⟩, ?_⟩
  · simp only [pop, if_neg hne]
    simpa [readAt] using hc0
  · simp only [pop, if_neg hne]
    rw [contentOpt_shift sz rb sz (rb.len - 1)]
    rw [show rb.len - 1 = vs.length by omega, ← hcs]
    apply List.map_congr_left
    intro a _
    show rb.mem ((rb.base + sz + a * sz) % rb.cap) =
      rb.mem ((rb.base + (a + 1) * sz) % rb.cap)
    apply congrArg
    congr 1
    ring
  · simp only [pop, if_neg hne]

theorem remove_tail_content {α : Type} (sz : Nat) (rb : RingBuffer α) (n : Nat) :
    contentOpt sz (remove_tail sz rb n) = (contentOpt sz rb).drop (min rb.len n) := by
  simp only [remove_tail]
  rw [contentOpt_shift sz rb (min rb.len n * sz) (rb.len - min rb.len n)]
  rw [contentOpt, range_map_drop]
  apply List.map_congr_left
  intro a _
  apply congrArg
  congr 1
  ring

theorem remove_tail_inv {α : Type} {sz : Nat} (hsz : 0 < sz) {rb : RingBuffer α}
    (hInv : Inv sz rb) (n : Nat) :
    Inv sz (remove_tail sz rb n) ∧ (remove_tail sz rb n).len = rb.len - min rb.len n ∧
    (remove_tail sz rb n).cap = rb.cap := by
  have hm : min rb.len n ≤ rb.len := Nat.min_le_left _ _
  have hms : min rb.len n * sz ≤ rb.len * sz := Nat.mul_le_mul_right sz hm
  have hl : (rb.len - min rb.len n) * sz ≤ rb.len * sz :=
    Nat.mul_le_mul_right sz (by omega)
  have h1 := hInv.1
  refine ⟨⟨by show (rb.len - min rb.len n) * sz ≤ rb.cap; omega, ?_⟩, rfl, rfl⟩
  rcases hInv.2 with hb | ⟨hc0, hb0⟩
  · left
    show (if rb.cap ≤ rb.base + min rb.len n * sz
      then rb.base + min rb.len n * sz - rb.cap
      else rb.base + min rb.len n * sz) < rb.cap
    exact wrap_lt (by omega)
  · right
    have hml : rb.len * sz = 0 := by omega
    have hl0 : rb.len = 0 := by
      rcases Nat.mul_eq_zero.1 hml with h | h
      · exact h
      · omega
    refine ⟨hc0, ?_⟩
    show (if rb.cap ≤ rb.base + min rb.len n * sz
      then rb.base + min rb.len n * sz - rb.cap
      else rb.base + min rb.len n * sz) = 0
    rw [hl0, hc0, hb0]
    simp

theorem truncate_inv {α : Type} {sz : Nat} {rb : RingBuffer α}
    (hInv : Inv sz rb) (n : Nat) : Inv sz (truncate rb n) := by
  simp only [truncate]
  split
  · exact hInv
  · rename_i hle
    refine ⟨?_, hInv.2⟩
    show n * sz ≤ rb.cap
    have h1 : n * sz ≤ rb.len * sz := Nat.mul_le_mul_right sz (by omega)
    have h2 := hInv.1
    omega

theorem clear_inv {α : Type} {sz : Nat} {rb : RingBuffer α}
    (hInv : Inv sz rb) : Inv sz (clear rb) := by
  refine ⟨?_, hInv.2⟩
  show 0 * sz ≤ rb.cap
  simp

theorem with_capacity_inv {α : Type} {sz g k : Nat} {osFail : Nat → Bool} {n : Nat}
    {rb : RingBuffer α} (hsz : 0 < sz) (hg : g = 2 ^ k) (hk : k ≤ 63)
    (h : with_capacity sz g osFail n = (rb, none)) :
    Inv sz rb ∧ rb.len = 0 ∧ contentOpt sz rb = [] := by
  simp only [with_capacity] at h
  split at h
  · rw [Prod.mk.injEq] at h
    obtain ⟨hA, -⟩ := h
    subst hA
    exact ⟨⟨by show (0 : Nat) * sz ≤ 0; simp, Or.inr ⟨rfl, rfl⟩⟩, rfl, rfl⟩
  · rename_i hn0
    cases hal : allocate g osFail n sz with
    | error e => rw [hal] at h; exact absurd h (by simp)
    | ok c =>
      rw [hal] at h
      simp only at h
      rw [Prod.mk.injEq] at h
      obtain ⟨hA, -⟩ := h
      subst hA
      have hge := allocate_ge hsz hg hk (by omega) hal
      exact ⟨⟨by simp, Or.inl hge.2⟩, rfl, rfl⟩

theorem extend_full {α : Type} {sz g k : Nat} {osFail : Nat → Bool}
    {rb rb' : RingBuffer α} {S : List α}
    (hsz : 0 < sz) (hg : g = 2 ^ k) (hk : k ≤ 63) (hInv : Inv sz rb)
    (h : extend_from_slice sz g osFail rb S = (rb', none)) :
    Inv sz rb' ∧ rb'.len = rb.len + S.length ∧
    contentOpt sz rb' = contentOpt sz rb ++ S.map some := by
  simp only [extend_from_slice] at h
  rcases hres : reserve sz g osFail rb S.length with ⟨rb1, p⟩
  rw [hres] at h
  cases p with
  | some e => simp at h
  | none =>
    simp only at h
    rw [Prod.mk.injEq] at h
    obtain ⟨hA, -⟩ := h
    subst hA
    obtain ⟨hlen1, hInv1, hcap1, hcnt1, -⟩ := reserve_ok hsz hg hk hInv hres
    have hcc : (rb.len + S.length) * sz ≤ rb1.cap := (Nat.le_div_iff_mul_le hsz).1 hcap1
    have hcc1 : (rb1.len + S.length) * sz ≤ rb1.cap := by rw [hlen1]; exact hcc
    have hinj : ∀ i j, i < S.length → j < S.length →
        (rb1.base + rb1.len * sz + i * sz) % rb1.cap =
          (rb1.base + rb1.len * sz + j * sz) % rb1.cap → i = j := by
      intro i j hi hj he
      rw [show rb1.base + rb1.len * sz + i * sz = rb1.base + (rb1.len + i) * sz by ring,
        show rb1.base + rb1.len * sz + j * sz = rb1.base + (rb1.len + j) * sz by ring] at he
      have h2 := slot_inj sz rb1.cap rb1.base hsz (rb1.len + S.length) hcc1
        (by omega) (by omega) he
      omega
    refine ⟨⟨?_, ?_⟩, ?_, ?_⟩
    · show (rb1.len + S.length) * sz ≤
        (writeList sz rb1 (rb1.base + rb1.len * sz) S).cap
      rw [writeList_cap]
      exact hcc1
    · show (writeList sz rb1 (rb1.base + rb1.len * sz) S).base <
        (writeList sz rb1 (rb1.base + rb1.len * sz) S).cap ∨ _
      rw [writeList_base, writeList_cap]
      exact hInv1.2
    · show rb1.len + S.length = rb.len + S.length
      omega
    · show contentOpt sz ({ writeList sz rb1 (rb1.base + rb1.len * sz) S with
        len := rb1.len + S.length }) = _
      rw [← hcnt1]
      simp only [contentOpt, writeList_base, writeList_cap, List.range_add,
        List.map_append, List.map_map]
      congr 1
      · apply List.map_congr_left
        intro a ha
        rw [List.mem_range] at ha
        apply writeList_mem_other
        intro j hj he
        rw [show rb1.base + rb1.len * sz + j * sz = rb1.base + (rb1.len + j) * sz
          by ring] at he
        have h2 := slot_inj sz rb1.cap rb1.base hsz (rb1.len + S.length) hcc1
          (by omega) (by omega) he
        omega
      · rw [← range_map_getElem S]
        apply List.map_congr_left
        intro j hj
        rw [List.mem_range] at hj
        show (writeList sz rb1 (rb1.base + rb1.len * sz) S).mem
          ((rb1.base + (rb1.len + j) * sz) % rb1.cap) = S[j]?
        have hmg := writeList_mem_get sz rb1 (rb1.base + rb1.len * sz) S hinj j hj
        rw [show rb1.base + (rb1.len + j) * sz = rb1.base + rb1.len * sz + j * sz
          by ring]
        exact hmg

theorem resize_inv {α : Type} {sz g k : Nat} {osFail : Nat → Bool}
    {rb rb' : RingBuffer α} {n : Nat} {f : Nat → α}
    (hsz : 0 < sz) (hg : g = 2 ^ k) (hk : k ≤ 63) (hInv : Inv sz rb)
    (h : resize_with sz g osFail rb n f = (rb', none)) : Inv sz rb' := by
  simp only [resize_with] at h
  split at h
  · rw [Prod.mk.injEq] at h
    obtain ⟨hA, -⟩ := h
    subst hA
    exact truncate_inv hInv n
  · rename_i hgt
    rcases hres : reserve sz g osFail rb (n - rb.len) with ⟨rb1, p⟩
    rw [hres] at h
    cases p with
    | some e => simp at h
    | none =>
      simp only at h
      rw [Prod.mk.injEq] at h
      obtain ⟨hA, -⟩ := h
      subst hA
      obtain ⟨hlen1, hInv1, hcap1, -, -⟩ := reserve_ok hsz hg hk hInv hres
      have hcc : (rb.len + (n - rb.len)) * sz ≤ rb1.cap :=
        (Nat.le_div_iff_mul_le hsz).1 hcap1
      have hn' : n * sz ≤ rb1.cap := by
        rw [show rb.len + (n - rb.len) = n by omega] at hcc
        exact hcc
      have hc0 : 0 < rb1.cap := by
        have h1 : 1 * sz ≤ n * sz := Nat.mul_le_mul_right sz (by omega)
        omega
      refine ⟨?_, ?_⟩
      · show n * sz ≤ (writeList sz rb1 (rb1.base + rb1.len * sz)
          ((List.range (n - rb1.len)).map f)).cap
        rw [writeList_cap]
        exact hn'
      · show (writeList sz rb1 (rb1.base + rb1.len * sz)
            ((List.range (n - rb1.len)).map f)).base <
          (writeList sz rb1 (rb1.base + rb1.len * sz)
            ((List.range (n - rb1.len)).map f)).cap ∨ _
        rw [writeList_base, writeList_cap]
        rcases hInv1.2 with hb | ⟨h0, -⟩
        · exact Or.inl hb
        · omega

theorem pushAll_spec {α : Type} {sz g k : Nat} {osFail : Nat → Bool}
    (hsz : 0 < sz) (hg : g = 2 ^ k) (hk : k ≤ 63) :
    ∀ (ws : List α) (rb rb' : RingBuffer α) (vs : List α),
      Abstracts sz rb vs → pushAll sz g osFail rb ws = (rb', none) →
      Abstracts sz rb' (vs ++ ws) := by
  intro ws
  induction ws with
  | nil =>
    intro rb rb' vs habs h
    simp only [pushAll] at h
    rw [Prod.mk.injEq] at h
    obtain ⟨hA, -⟩ := h
    subst hA
    simpa using habs
  | cons w ws ih =>
    intro rb rb' vs habs h
    simp only [pushAll] at h
    rcases hp : push sz g osFail rb w with ⟨rb1, p⟩
    rw [hp] at h
    cases p with
    | some e => simp at h
    | none =>
      simp only at h
      obtain ⟨hInv1, -, hcnt1⟩ := push_full hsz hg hk habs.1 hp
      have habs1 : Abstracts sz rb1 (vs ++ [w]) := by
        refine ⟨hInv1, ?_⟩
        rw [hcnt1, habs.2]
        simp
      have h2 := ih rb1 rb' (vs ++ [w]) habs1 h
      simpa using h2

theorem popList_spec {α : Type} {sz : Nat} (hsz : 0 < sz) :
    ∀ (vs : List α) (rb : RingBuffer α), Abstracts sz rb vs →
      (popList sz rb vs.length).1 = vs.map some := by
  intro vs
  induction vs with
  | nil => intro rb _; rfl
  | cons v t ih =>
    intro rb habs
    obtain ⟨h1, habs2, -⟩ := pop_spec hsz habs
    show ((pop sz rb).1 :: (popList sz (pop sz rb).2 t.length).1) = some v :: t.map some
    rw [h1, ih _ habs2]

/-- C1: for every reachable state of a `RingBuffer` (any sequence of
successful public operations starting from `new` or `with_capacity`),
`len * size_of ≤ cap` (equivalently `len ≤ capacity()`), and `base` lies in
the lower mirror: `0 ≤ base < cap` once any allocation has occurred, while
`base = 0` as long as `cap = 0`; in particular `pop` and `remove_tail`
re-normalize `base` after advancing it. -/
theorem C1_reachable_invariant {α : Type} {sz g k : Nat} {osFail : Nat → Bool}
    (hsz : 0 < sz) (hg : g = 2 ^ k) (hk : k ≤ 63) {rb : RingBuffer α}
    (h : Reachable α sz g osFail rb) :
    rb.len * sz ≤ rb.cap ∧ rb.len ≤ rb.cap / sz ∧
    (rb.base < rb.cap ∨ (rb.cap = 0 ∧ rb.base = 0)) := by
  have hInv : Inv sz rb := by
    induction h with
    | new => exact ⟨by show (0 : Nat) * sz ≤ 0; simp, Or.inr ⟨rfl, rfl⟩⟩
    | with_capacity n rb0 h0 => exact (with_capacity_inv hsz hg hk h0).1
    | push rb0 rb1 v hr h0 ih => exact (push_full hsz hg hk ih h0).1
    | pop rb0 hr ih => exact pop_inv hsz ih
    | remove_tail rb0 n hr ih => exact (remove_tail_inv hsz ih n).1
    | truncate rb0 n hr ih => exact truncate_inv ih n
    | clear rb0 hr ih => exact clear_inv ih
    | extend_from_slice rb0 rb1 other hr h0 ih => exact (extend_full hsz hg hk ih h0).1
    | reserve rb0 rb1 kk hr h0 ih => exact (reserve_ok hsz hg hk ih h0).2.1
    | resize_with rb0 rb1 n f hr h0 ih => exact resize_inv hsz hg hk ih h0
  exact ⟨hInv.1, (Nat.le_div_iff_mul_le hsz).2 hInv.1, hInv.2⟩

theorem C1_reachable_invariant_witness :
    (RingBuffer.new : RingBuffer Nat).len * 1 ≤ (RingBuffer.new : RingBuffer Nat).cap ∧
    (RingBuffer.new : RingBuffer Nat).len ≤ (RingBuffer.new : RingBuffer Nat).cap / 1 ∧
    ((RingBuffer.new : RingBuffer Nat).base < (RingBuffer.new : RingBuffer Nat).cap ∨
      ((RingBuffer.new : RingBuffer Nat).cap = 0 ∧
        (RingBuffer.new : RingBuffer Nat).base = 0)) :=
  @C1_reachable_invariant Nat 1 1 0 (fun _ => false) (by decide) rfl (by decide)
    RingBuffer.new Reachable.new

/-- C2: FIFO order and growth preserving content — pushing the values of
`vs` in order onto an initially empty ring buffer (with growth happening
as needed, regardless of how many reallocations occur) and then popping
`vs.length` times returns exactly the values of `vs`, in order. -/
theorem C2_fifo_order {α : Type} (sz g k : Nat) (osFail : Nat → Bool)
    (hsz : 0 < sz) (hg : g = 2 ^ k) (hk : k ≤ 63)
    (vs : List α) (rb' : RingBuffer α)
    (h : pushAll sz g osFail RingBuffer.new vs = (rb', none)) :
    (popList sz rb' vs.length).1 = vs.map some := by
  have habs0 : Abstracts sz (RingBuffer.new : RingBuffer α) [] :=
    ⟨⟨by show (0 : Nat) * sz ≤ 0; simp, Or.inr ⟨rfl, rfl⟩⟩, rfl⟩
  have habs := pushAll_spec hsz hg hk vs RingBuffer.new rb' [] habs0 h
  exact popList_spec hsz vs rb' (by simpa using habs)

theorem C2_fifo_order_witness :
    (popList 1 (pushAll 1 1 (fun _ => false) RingBuffer.new [10, 20]).1 2).1 =
      [some 10, some 20] :=
  C2_fifo_order 1 1 0 (fun _ => false) (by decide) rfl (by decide) [10, 20]
    (pushAll 1 1 (fun _ => false) RingBuffer.new [10, 20]).1
    (Prod.ext rfl (by decide))

/-- C4: growth requests a new mapping sized for exactly `len + additional`
elements (no multiplicative over-allocation beyond granularity rounding),
copies the `len` live elements starting at the old `base` into the new
mapping at offset 0, sets the new state's `base` to 0 and its `len` to the
old `len`, and zeroes the old buffer's `len` before the old mapping is
released, so the old structure's release destructs no moved element. -/
theorem C4_reallocate_growth {α : Type} {sz g k : Nat} {osFail : Nat → Bool}
    {rb rb' : RingBuffer α} {dropped : List (Option α)} {add : Nat}
    (hsz : 0 < sz) (hg : g = 2 ^ k) (hk : k ≤ 63) (hadd : 0 < rb.len + add)
    (h : reallocate sz g osFail rb add = (rb', dropped, none)) :
    allocate g osFail (rb.len + add) sz = Except.ok rb'.cap ∧
    rb'.base = 0 ∧ rb'.len = rb.len ∧
    (∀ i, i < rb.len → rb'.mem ((i * sz) % rb'.cap) = readAt rb (rb.base + i * sz)) ∧
    contentOpt sz rb' = contentOpt sz rb ∧
    dropped = [] := by
  obtain ⟨h1, h2, h3, -, -, h6, h7, h8⟩ := reallocate_ok hsz hg hk hadd h
  exact ⟨h1, h2, h3, h7, h8, h6⟩

theorem C4_reallocate_growth_witness :
    allocate 1 (fun _ => false) ((⟨1, 0, 1, fun p => if p = 0 then some 7 else
        none⟩ : RingBuffer Nat).len + 1) 1 =
      Except.ok (reallocate 1 1 (fun _ => false)
        (⟨1, 0, 1, fun p => if p = 0 then some 7 else none⟩ : RingBuffer Nat) 1).1.cap ∧
    (reallocate 1 1 (fun _ => false)
      (⟨1, 0, 1, fun p => if p = 0 then some 7 else none⟩ : RingBuffer Nat) 1).1.base = 0 ∧
    (reallocate 1 1 (fun _ => false)
        (⟨1, 0, 1, fun p => if p = 0 then some 7 else none⟩ : RingBuffer Nat) 1).1.len =
      (⟨1, 0, 1, fun p => if p = 0 then some 7 else none⟩ : RingBuffer Nat).len ∧
    (∀ i, i < (⟨1, 0, 1, fun p => if p = 0 then some 7 else
        none⟩ : RingBuffer Nat).len →
      (reallocate 1 1 (fun _ => false)
          (⟨1, 0, 1, fun p => if p = 0 then some 7 else none⟩ : RingBuffer Nat) 1).1.mem
        ((i * 1) % (reallocate 1 1 (fun _ => false)
          (⟨1, 0, 1, fun p => if p = 0 then some 7 else none⟩ : RingBuffer Nat) 1).1.cap) =
      readAt (⟨1, 0, 1, fun p => if p = 0 then some 7 else none⟩ : RingBuffer Nat)
        ((⟨1, 0, 1, fun p => if p = 0 then some 7 else none⟩ : RingBuffer Nat).base + i * 1)) ∧
    contentOpt 1 (reallocate 1 1 (fun _ => false)
        (⟨1, 0, 1, fun p => if p = 0 then some 7 else none⟩ : RingBuffer Nat) 1).1 =
      contentOpt 1 (⟨1, 0, 1, fun p => if p = 0 then some 7 else none⟩ : RingBuffer Nat) ∧
    (reallocate 1 1 (fun _ => false)
      (⟨1, 0, 1, fun p => if p = 0 then some 7 else none⟩ : RingBuffer Nat) 1).2.1 = [] :=
  C4_reallocate_growth (by decide) (Nat.pow_zero 2).symm (by decide) (by decide)
    (Prod.ext rfl (Prod.ext rfl (by decide)))

/-- C5: for every state and every `n`, `remove_tail n` clamps `n` to the
current length, removes exactly `min n len` elements from the logical
front, decreases `len` by that amount, advances `base` and wraps it — and
it is total: removing more elements than exist is normal control flow, not
an error. -/
theorem C5_remove_tail_clamps {α : Type} (sz : Nat) (hsz : 0 < sz)
    {rb : RingBuffer α} {vs : List α} (n : Nat) (habs : Abstracts sz rb vs) :
    (remove_tail sz rb n).len = rb.len - min n rb.len ∧
    contentOpt sz (remove_tail sz rb n) = (contentOpt sz rb).drop (min n rb.len) ∧
    Abstracts sz (remove_tail sz rb n) (vs.drop (min n rb.len)) ∧
    (remove_tail sz rb n).base =
      (if rb.cap ≤ rb.base + min rb.len n * sz
        then rb.base + min rb.len n * sz - rb.cap
        else rb.base + min rb.len n * sz) := by
  have hmc : min n rb.len = min rb.len n := Nat.min_comm n rb.len
  obtain ⟨hInv', hlen', -⟩ := remove_tail_inv hsz habs.1 n
  have hcnt := remove_tail_content sz rb n
  refine ⟨by rw [hmc]; exact hlen', by rw [hmc]; exact hcnt, ⟨hInv', ?_⟩, rfl⟩
  rw [hcnt, habs.2, hmc, List.map_drop]

theorem C5_remove_tail_clamps_witness :
    (remove_tail 1 (⟨1, 0, 1, fun p => if p = 0 then some 5 else
        none⟩ : RingBuffer Nat) 3).len =
      (⟨1, 0, 1, fun p => if p = 0 then some 5 else none⟩ : RingBuffer Nat).len -
        min 3 (⟨1, 0, 1, fun p => if p = 0 then some 5 else none⟩ : RingBuffer Nat).len ∧
    contentOpt 1 (remove_tail 1 (⟨1, 0, 1, fun p => if p = 0 then some 5 else
        none⟩ : RingBuffer Nat) 3) =
      (contentOpt 1 (⟨1, 0, 1, fun p => if p = 0 then some 5 else
        none⟩ : RingBuffer Nat)).drop
        (min 3 (⟨1, 0, 1, fun p => if p = 0 then some 5 else none⟩ : RingBuffer Nat).len) ∧
    Abstracts 1 (remove_tail 1 (⟨1, 0, 1, fun p => if p = 0 then some 5 else
        none⟩ : RingBuffer Nat) 3)
      (([5] : List Nat).drop
        (min 3 (⟨1, 0, 1, fun p => if p = 0 then some 5 else none⟩ : RingBuffer Nat).len)) ∧
    (remove_tail 1 (⟨1, 0, 1, fun p => if p = 0 then some 5 else
        none⟩ : RingBuffer Nat) 3).base =
      (if (⟨1, 0, 1, fun p => if p = 0 then some 5 else none⟩ : RingBuffer Nat).cap ≤
          (⟨1, 0, 1, fun p => if p = 0 then some 5 else none⟩ : RingBuffer Nat).base +
            min (⟨1, 0, 1, fun p => if p = 0 then some 5 else
              none⟩ : RingBuffer Nat).len 3 * 1
        then (⟨1, 0, 1, fun p => if p = 0 then some 5 else none⟩ : RingBuffer Nat).base +
            min (⟨1, 0, 1, fun p => if p = 0 then some 5 else
              none⟩ : RingBuffer Nat).len 3 * 1 -
            (⟨1, 0, 1, fun p => if p = 0 then some 5 else none⟩ : RingBuffer Nat).cap
        else (⟨1, 0, 1, fun p => if p = 0 then some 5 else none⟩ : RingBuffer Nat).base +
            min (⟨1, 0, 1, fun p => if p = 0 then some 5 else
              none⟩ : RingBuffer Nat).len 3 * 1) :=
  C5_remove_tail_clamps 1 (by decide) 3
    ⟨⟨by decide, Or.inl (by decide)⟩, by decide⟩

/-- C6: `pop` returns nothing iff the buffer is empty, and this is a
normal non-error outcome; otherwise it returns the element stored at
offset `base` (the logical front), decrements `len`, advances `base` by
one element size and wraps it by subtracting `cap` if it reached `cap`,
leaving `base` inside the lower mirror. -/
theorem C6_pop_none_iff_empty {α : Type} (sz : Nat) (hsz : 0 < sz)
    {rb : RingBuffer α} {vs : List α} (habs : Abstracts sz rb vs) :
    ((pop sz rb).1 = none ↔ rb.len = 0) ∧
    (rb.len ≠ 0 →
      (pop sz rb).1 = rb.mem (rb.base % rb.cap) ∧
      (pop sz rb).2.len = rb.len - 1 ∧
      (pop sz rb).2.base =
        (if rb.cap ≤ rb.base + sz then rb.base + sz - rb.cap else rb.base + sz) ∧
      (pop sz rb).2.base < rb.cap) := by
  have hlenvs : rb.len = vs.length := by
    have h1 := congrArg List.length habs.2
    simpa [contentOpt] using h1
  constructor
  · constructor
    · intro hn
      by_contra hne
      cases vs with
      | nil =>
        rw [List.length_nil] at hlenvs
        exact hne hlenvs
      | cons v t =>
        obtain ⟨h1, -, -⟩ := pop_spec hsz habs
        rw [h1] at hn
        exact Option.noConfusion hn
    · intro h0
      simp [pop, h0]
  · intro hne
    have hsle : sz ≤ rb.cap := by
      have h1 : 1 * sz ≤ rb.len * sz := Nat.mul_le_mul_right sz (by omega)
      have h2 := habs.1.1
      omega
    have hb : rb.base < rb.cap := by
      rcases habs.1.2 with hb | ⟨hc0, -⟩
      · exact hb
      · omega
    refine ⟨?_, ?_, ?_, ?_⟩
    · simp only [pop, if_neg hne]
      rfl
    · simp only [pop, if_neg hne]
    · simp only [pop, if_neg hne]
    · simp only [pop, if_neg hne]
      show (if rb.cap ≤ rb.base + sz then rb.base + sz - rb.cap else rb.base + sz) <
        rb.cap
      exact wrap_lt (by omega)

theorem C6_pop_none_iff_empty_witness :
    ((pop 1 (⟨1, 0, 1, fun p => if p = 0 then some 5 else
        none⟩ : RingBuffer Nat)).1 = none ↔
      (⟨1, 0, 1, fun p => if p = 0 then some 5 else none⟩ : RingBuffer Nat).len = 0) ∧
    ((⟨1, 0, 1, fun p => if p = 0 then some 5 else none⟩ : RingBuffer Nat).len ≠ 0 →
      (pop 1 (⟨1, 0, 1, fun p => if p = 0 then some 5 else
          none⟩ : RingBuffer Nat)).1 =
        (⟨1, 0, 1, fun p => if p = 0 then some 5 else none⟩ : RingBuffer Nat).mem
          ((⟨1, 0, 1, fun p => if p = 0 then some 5 else none⟩ : RingBuffer Nat).base %
            (⟨1, 0, 1, fun p => if p = 0 then some 5 else none⟩ : RingBuffer Nat).cap) ∧
      (pop 1 (⟨1, 0, 1, fun p => if p = 0 then some 5 else
          none⟩ : RingBuffer Nat)).2.len =
        (⟨1, 0, 1, fun p => if p = 0 then some 5 else none⟩ : RingBuffer Nat).len - 1 ∧
      (pop 1 (⟨1, 0, 1, fun p => if p = 0 then some 5 else
          none⟩ : RingBuffer Nat)).2.base =
        (if (⟨1, 0, 1, fun p => if p = 0 then some 5 else none⟩ : RingBuffer Nat).cap ≤
            (⟨1, 0, 1, fun p => if p = 0 then some 5 else none⟩ : RingBuffer Nat).base + 1
          then (⟨1, 0, 1, fun p => if p = 0 then some 5 else
              none⟩ : RingBuffer Nat).base + 1 -
            (⟨1, 0, 1, fun p => if p = 0 then some 5 else none⟩ : RingBuffer Nat).cap
          else (⟨1, 0, 1, fun p => if p = 0 then some 5 else
            none⟩ : RingBuffer Nat).base + 1) ∧
      (pop 1 (⟨1, 0, 1, fun p => if p = 0 then some 5 else
          none⟩ : RingBuffer Nat)).2.base <
        (⟨1, 0, 1, fun p => if p = 0 then some 5 else none⟩ : RingBuffer Nat).cap) :=
  C6_pop_none_iff_empty 1 (by decide)
    ((⟨⟨by decide, Or.inl (by decide)⟩, by decide⟩ :
      Abstracts 1 (⟨1, 0, 1, fun p => if p = 0 then some 5 else
        none⟩ : RingBuffer Nat) [5]))

/-- C7: appending a slice `S` of length `m` with `extend_from_slice` and
then calling `remove_tail m` returns the buffer to its pre-append length;
the remaining content is the pre-append content with its first `m`
elements removed and `S` appended. -/
theorem C7_extend_remove_roundtrip {α : Type} {sz g k : Nat} {osFail : Nat → Bool}
    {rb rb1 : RingBuffer α} {vs S : List α}
    (hsz : 0 < sz) (hg : g = 2 ^ k) (hk : k ≤ 63)
    (habs : Abstracts sz rb vs)
    (h : extend_from_slice sz g osFail rb S = (rb1, none)) :
    (remove_tail sz rb1 S.length).len = rb.len ∧
    Abstracts sz (remove_tail sz rb1 S.length) ((vs ++ S).drop S.length) ∧
    (S.length ≤ vs.length →
      contentOpt sz (remove_tail sz rb1 S.length) =
        (vs.drop S.length ++ S).map some) := by
  obtain ⟨hInv1, hlen1, hcnt1⟩ := extend_full hsz hg hk habs.1 h
  have habs1 : Abstracts sz rb1 (vs ++ S) := ⟨hInv1, by rw [hcnt1, habs.2]; simp⟩
  have hmin : min rb1.len S.length = S.length := by omega
  obtain ⟨hInv2, hlen2, -⟩ := remove_tail_inv hsz hInv1 S.length
  have hcnt2 := remove_tail_content sz rb1 S.length
  rw [hmin] at hlen2 hcnt2
  have hcnt3 : contentOpt sz (remove_tail sz rb1 S.length) =
      ((vs ++ S).drop S.length).map some := by
    rw [hcnt2, habs1.2, List.map_drop]
  refine ⟨by omega, ⟨hInv2, hcnt3⟩, fun hms => ?_⟩
  rw [hcnt3, List.drop_append_of_le_length hms]

theorem C7_extend_remove_roundtrip_witness :
    (remove_tail 1 (extend_from_slice 1 1 (fun _ => false)
        (RingBuffer.new : RingBuffer Nat) [9]).1 ([9] : List Nat).length).len =
      (RingBuffer.new : RingBuffer Nat).len ∧
    Abstracts 1 (remove_tail 1 (extend_from_slice 1 1 (fun _ => false)
        (RingBuffer.new : RingBuffer Nat) [9]).1 ([9] : List Nat).length)
      ((([] : List Nat) ++ [9]).drop ([9] : List Nat).length) ∧
    (([9] : List Nat).length ≤ ([] : List Nat).length →
      contentOpt 1 (remove_tail 1 (extend_from_slice 1 1 (fun _ => false)
          (RingBuffer.new : RingBuffer Nat) [9]).1 ([9] : List Nat).length) =
        ((([] : List Nat).drop ([9] : List Nat).length ++ [9]).map some)) :=
  C7_extend_remove_roundtrip (by decide) (Nat.pow_zero 2).symm (by decide)
    ⟨⟨by decide, Or.inr ⟨rfl, rfl⟩⟩, rfl⟩
    (Prod.ext rfl (by decide))

/-- C8: after `reserve kk` returns, the spare capacity `reserved_len` is at
least `kk` and `len` is unchanged; when `kk` does not exceed the existing
spare capacity the state is entirely unchanged — reallocation happens only
when the spare capacity is insufficient, and the unreachable-hint branch
in `reserve` (spare still short after growth) is genuinely unreachable. -/
theorem C8_reserve_spare {α : Type} {sz g k : Nat} {osFail : Nat → Bool}
    {rb rb' : RingBuffer α} (kk : Nat)
    (hsz : 0 < sz) (hg : g = 2 ^ k) (hk : k ≤ 63) (hInv : Inv sz rb)
    (h : reserve sz g osFail rb kk = (rb', none)) :
    rb'.len = rb.len ∧
    reserved_len sz rb' = Except.ok (rb'.cap / sz - rb'.len) ∧
    kk ≤ rb'.cap / sz - rb'.len ∧
    (kk ≤ rb.cap / sz - rb.len → rb' = rb) := by
  obtain ⟨hlen, hInv', hcap, -, hid⟩ := reserve_ok hsz hg hk hInv h
  have hz : ¬ sz = 0 := by omega
  refine ⟨hlen, ?_, by omega, hid⟩
  unfold reserved_len usizeDiv
  rw [if_neg hz]

theorem C8_reserve_spare_witness :
    (reserve 1 1 (fun _ => false) (RingBuffer.new : RingBuffer Nat) 5).1.len =
      (RingBuffer.new : RingBuffer Nat).len ∧
    reserved_len 1 (reserve 1 1 (fun _ => false)
        (RingBuffer.new : RingBuffer Nat) 5).1 =
      Except.ok ((reserve 1 1 (fun _ => false)
          (RingBuffer.new : RingBuffer Nat) 5).1.cap / 1 -
        (reserve 1 1 (fun _ => false) (RingBuffer.new : RingBuffer Nat) 5).1.len) ∧
    5 ≤ (reserve 1 1 (fun _ => false) (RingBuffer.new : RingBuffer Nat) 5).1.cap / 1 -
      (reserve 1 1 (fun _ => false) (RingBuffer.new : RingBuffer Nat) 5).1.len ∧
    (5 ≤ (RingBuffer.new : RingBuffer Nat).cap / 1 -
        (RingBuffer.new : RingBuffer Nat).len →
      (reserve 1 1 (fun _ => false) (RingBuffer.new : RingBuffer Nat) 5).1 =
        RingBuffer.new) :=
  C8_reserve_spare 5 (by decide) (Nat.pow_zero 2).symm (by decide)
    ⟨by decide, Or.inr ⟨rfl, rfl⟩⟩
    ((Prod.ext rfl (by decide)) :
      reserve 1 1 (fun _ => false) (RingBuffer.new : RingBuffer Nat) 5 =
        ((reserve 1 1 (fun _ => false) (RingBuffer.new : RingBuffer Nat) 5).1, none))

/-- C9: if growth fails — `checked_add` overflow of `len + additional`, an
invalid rounded capacity, or OS mapping failure — the operation aborts
fatally with the ring buffer state exactly as it was before the operation
and destructs nothing: there is no partial-success state, because every
failure occurs before the copy/replace step commits; and those are exactly
the failure causes. -/
theorem C9_growth_failure_atomic {α : Type} (sz g : Nat) (osFail : Nat → Bool)
    (rb : RingBuffer α) (add : Nat) :
    ((reallocate sz g osFail rb add).2.2 ≠ none →
      (reallocate sz g osFail rb add).1 = rb ∧
      (reallocate sz g osFail rb add).2.1 = []) ∧
    ((reallocate sz g osFail rb add).2.2 ≠ none ↔
      USIZE ≤ rb.len + add ∨
        (∃ e, allocate g osFail (rb.len + add) sz = Except.error e)) := by
  simp only [reallocate]
  split
  · rename_i hov
    refine ⟨fun _ => ⟨rfl, rfl⟩, ?_⟩
    constructor
    · intro _
      exact Or.inl hov
    · intro _
      simp
  · rename_i hov
    cases hal : allocate g osFail (rb.len + add) sz with
    | error e =>
      refine ⟨fun _ => ⟨rfl, rfl⟩, ?_⟩
      constructor
      · intro _
        exact Or.inr ⟨e, rfl⟩
      · intro _
        simp
    | ok c =>
      refine ⟨fun hcon => absurd rfl hcon, ?_⟩
      constructor
      · intro hcon
        exact absurd rfl hcon
      · rintro (hl | ⟨e, he⟩)
        · exact absurd hl hov
        · exact Except.noConfusion he

theorem C9_growth_failure_atomic_witness :
    (reallocate 1 1 (fun _ => false) (RingBuffer.new : RingBuffer Nat) USIZE).1 =
        RingBuffer.new ∧
    (reallocate 1 1 (fun _ => false) (RingBuffer.new : RingBuffer Nat) USIZE).2.1 =
        [] :=
  (C9_growth_failure_atomic 1 1 (fun _ => false) RingBuffer.new USIZE).1 (by decide)

/-- C10: for a zero-sized element type (`size_of = 0`), `capacity` and
`reserved_len` perform a division by zero (`cap / size_of`) and fail
rather than returning a value, and therefore every `push`, `reserve` and
`extend_from_slice` — even on a freshly constructed empty buffer — fails
the same way: zero-sized element types are unusable with this structure. -/
theorem C10_zst_division_by_zero {α : Type} (g : Nat) (osFail : Nat → Bool)
    (rb : RingBuffer α) (v : α) (kk : Nat) (S : List α) :
    capacityE 0 rb = Except.error "attempt to divide by zero" ∧
    reserved_len 0 rb = Except.error "attempt to divide by zero" ∧
    (push 0 g osFail rb v).2 = some "attempt to divide by zero" ∧
    (reserve 0 g osFail rb kk).2 = some "attempt to divide by zero" ∧
    (extend_from_slice 0 g osFail rb S).2 = some "attempt to divide by zero" :=
  ⟨rfl, rfl, rfl, rfl, rfl⟩

end RingBuf
